import Mathlib

/-!
Verification of the crawl-orchestration core of a recipe-site crawler
dashboard (src/app.py) against its natural-language specification.

The Python source is shallowly embedded: pure fragments become Lean
functions; the network is abstracted by explicit environments (oracles)
passed as parameters; Python exceptions caught by bare except-blocks
become Option results.  Machine arithmetic does not occur (Python ints
are unbounded), so years, months and weeks are Int, counters are Nat,
and the crawlability score is a rational number.
-/

namespace Crawler

/-! ### Character and string utilities

Python string operations used by the source (str.lower, str.strip,
str.splitlines, str.split, substring tests) are modelled on the
underlying character lists.  lowerChar is the ASCII case map, exact for
the ASCII directive keywords the source compares against.
-/

def lowerChar (c : Char) : Char :=
  if 65 ≤ c.toNat ∧ c.toNat ≤ 90 then Char.ofNat (c.toNat + 32) else c

def lowerStr (s : String) : String :=
  ⟨s.data.map lowerChar⟩

def isWsChar (c : Char) : Bool :=
  c == ' ' || c == '\t' || c == '\n' || c == '\r'

/-- Model of Python str.strip: removes leading and trailing whitespace. -/
def stripChars (l : List Char) : List Char :=
  ((l.dropWhile isWsChar).reverse.dropWhile isWsChar).reverse

def stripStr (s : String) : String :=
  ⟨stripChars s.data⟩

/-- Model of Python str.startswith on strings. -/
def startsWithStr (p s : String) : Bool :=
  List.isPrefixOf p.data s.data

/-- Model of the Python substring test (needle in haystack). -/
def hasSubstr (needle : List Char) : List Char → Bool
  | [] => List.isPrefixOf needle []
  | c :: rest => List.isPrefixOf needle (c :: rest) || hasSubstr needle rest

/-- The characters after the first colon, as used by
line.split(":", 1)[1] in the source (only called on lines that
contain a colon). -/
def afterFirstColon : List Char → List Char
  | [] => []
  | c :: rest => if c = ':' then rest else afterFirstColon rest

/-- The characters before the first occurrence of a given character
(used for the robots-parser comment cut at the first hash sign). -/
def beforeChar (stop : Char) : List Char → List Char
  | [] => []
  | c :: rest => if c = stop then [] else c :: beforeChar stop rest

/-- Splitting a character list at newline characters. -/
def splitNl : List Char → List Char → List String
  | [], cur => [⟨cur.reverse⟩]
  | c :: r, cur => if c = '\n' then ⟨cur.reverse⟩ :: splitNl r [] else splitNl r (c :: cur)

/-- Model of Python str.splitlines for texts whose line terminator is
a plain newline: split at every newline, and a trailing newline does
not produce a final empty line.  The empty string yields no lines. -/
def splitlinesStr (s : String) : List String :=
  match s.data with
  | [] => []
  | l =>
    match (splitNl l []).reverse with
    | [] => []
    | last :: front => if last = "" then front.reverse else (last :: front).reverse

/-! ### Decimal rendering of integers

Python f-strings render the loop indices with str(int); the model
renders decimal digits explicitly.  Injectivity of this rendering is
what makes distinct (year, month, week) buckets produce distinct
sitemap-query URLs, which the dictionary reasoning below relies on.
-/

def natReprGo : Nat → Nat → List Char → List Char
  | 0, _, acc => acc
  | fuel + 1, n, acc =>
    if n = 0 then acc else natReprGo fuel (n / 10) (Nat.digitChar (n % 10) :: acc)

/-- Digit accumulator of the decimal rendering; the fuel argument of
natReprGo only serves structural termination and is irrelevant as long
as it exceeds the value. -/
def natReprAux (n : Nat) (acc : List Char) : List Char :=
  natReprGo (n + 1) n acc

def natReprChars (n : Nat) : List Char :=
  if n = 0 then ['0'] else natReprAux n []

/-- Decimal rendering of a Python int, including the sign for
negative values. -/
def intReprChars (i : Int) : List Char :=
  if i < 0 then '-' :: natReprChars i.natAbs else natReprChars i.toNat

def intReprStr (i : Int) : String :=
  ⟨intReprChars i⟩

theorem natReprGo_fuel : ∀ n, ∀ f g acc, n < f → n < g →
    natReprGo f n acc = natReprGo g n acc := by
  intro n
  induction n using Nat.strong_induction_on with
  | _ n ih =>
    intro f g acc hf hg
    rcases f with _ | f
    · omega
    rcases g with _ | g
    · omega
    rcases Nat.eq_zero_or_pos n with rfl | hn
    · rfl
    · show (if n = 0 then acc else natReprGo f (n / 10) (Nat.digitChar (n % 10) :: acc)) =
        if n = 0 then acc else natReprGo g (n / 10) (Nat.digitChar (n % 10) :: acc)
      rw [if_neg (by omega), if_neg (by omega)]
      have hd : n / 10 < n := Nat.div_lt_self hn (by omega)
      exact ih (n / 10) hd f g _ (by omega) (by omega)

theorem natReprAux_zero (acc : List Char) : natReprAux 0 acc = acc := rfl

theorem natReprAux_succ (m : Nat) (acc : List Char) :
    natReprAux (m + 1) acc = natReprAux ((m + 1) / 10) (Nat.digitChar ((m + 1) % 10) :: acc) := by
  unfold natReprAux
  show (if m + 1 = 0 then acc else
      natReprGo (m + 1) ((m + 1) / 10) (Nat.digitChar ((m + 1) % 10) :: acc)) =
    natReprGo ((m + 1) / 10 + 1) ((m + 1) / 10) (Nat.digitChar ((m + 1) % 10) :: acc)
  rw [if_neg (by omega)]
  exact natReprGo_fuel ((m + 1) / 10) _ _ _
    (Nat.lt_of_lt_of_le (Nat.div_lt_self (by omega) (by omega)) (by omega)) (by omega)

theorem natReprAux_eq_append (n : Nat) : ∀ acc, natReprAux n acc = natReprAux n [] ++ acc := by
  induction n using Nat.strong_induction_on with
  | _ n ih =>
    intro acc
    rcases n with _ | m
    · simp [natReprAux_zero]
    · have hlt : (m + 1) / 10 < m + 1 := Nat.div_lt_self (Nat.succ_pos m) (by omega)
      rw [natReprAux_succ, natReprAux_succ]
      rw [ih _ hlt (Nat.digitChar ((m + 1) % 10) :: acc),
        ih _ hlt (Nat.digitChar ((m + 1) % 10) :: [])]
      simp

theorem natReprAux_chars (n : Nat) :
    ∀ c ∈ natReprAux n [], ∃ d, d < 10 ∧ c = Nat.digitChar d := by
  induction n using Nat.strong_induction_on with
  | _ n ih =>
    intro c hc
    rcases n with _ | m
    · rw [natReprAux_zero] at hc
      simp at hc
    · have hlt : (m + 1) / 10 < m + 1 := Nat.div_lt_self (Nat.succ_pos m) (by omega)
      rw [natReprAux_succ, natReprAux_eq_append] at hc
      rcases List.mem_append.1 hc with h | h
      · exact ih _ hlt c h
      · simp at h
        exact ⟨(m + 1) % 10, Nat.mod_lt _ (by omega), h⟩

theorem natReprAux_ne_nil {n : Nat} (h : n ≠ 0) : natReprAux n [] ≠ [] := by
  rcases n with _ | m
  · exact absurd rfl h
  · rw [natReprAux_succ, natReprAux_eq_append]
    simp

theorem digitChar_inj : ∀ a < 10, ∀ b < 10, Nat.digitChar a = Nat.digitChar b → a = b := by
  decide

theorem concat_inj {α : Type} {l₁ l₂ : List α} {a b : α}
    (h : l₁ ++ [a] = l₂ ++ [b]) : l₁ = l₂ ∧ a = b := by
  have h1 := congrArg List.reverse h
  simp at h1
  have h2 := congrArg List.reverse h1.2
  simp at h2
  exact ⟨h2, h1.1⟩

theorem natReprAux_inj : ∀ n, n ≠ 0 → ∀ m, m ≠ 0 →
    natReprAux n [] = natReprAux m [] → n = m := by
  intro n
  induction n using Nat.strong_induction_on with
  | _ n ih =>
    intro hn m hm h
    rcases n with _ | n'
    · exact absurd rfl hn
    rcases m with _ | m'
    · exact absurd rfl hm
    rw [natReprAux_succ, natReprAux_succ, natReprAux_eq_append,
      natReprAux_eq_append ((m' + 1) / 10)] at h
    have h' := concat_inj h
    have hmod : (n' + 1) % 10 = (m' + 1) % 10 :=
      digitChar_inj _ (Nat.mod_lt _ (by omega)) _ (Nat.mod_lt _ (by omega)) h'.2
    rcases Nat.eq_zero_or_pos ((n' + 1) / 10) with hz | hpos
    · rcases Nat.eq_zero_or_pos ((m' + 1) / 10) with hz2 | hpos2
      · omega
      · exfalso
        have h1 := h'.1
        rw [hz, natReprAux_zero] at h1
        exact natReprAux_ne_nil (by omega) h1.symm
    · rcases Nat.eq_zero_or_pos ((m' + 1) / 10) with hz2 | hpos2
      · exfalso
        have h1 := h'.1
        rw [hz2, natReprAux_zero] at h1
        exact natReprAux_ne_nil (by omega) h1
      · have hq := ih _ (Nat.div_lt_self (Nat.succ_pos n') (by omega))
          (by omega) ((m' + 1) / 10) (by omega) h'.1
        omega

theorem natReprAux_ne_single_zero {m : Nat} (hm : m ≠ 0) : natReprAux m [] ≠ ['0'] := by
  rcases m with _ | m'
  · exact absurd rfl hm
  intro h
  rw [natReprAux_succ, natReprAux_eq_append] at h
  have h0 : natReprAux ((m' + 1) / 10) [] ++ [Nat.digitChar ((m' + 1) % 10)] = [] ++ ['0'] := by
    simpa using h
  have h' := concat_inj h0
  have hq : (m' + 1) / 10 = 0 := by
    by_contra hq
    exact natReprAux_ne_nil hq h'.1
  have hr : (m' + 1) % 10 = 0 := by
    have : Nat.digitChar ((m' + 1) % 10) = Nat.digitChar 0 := by
      rw [h'.2]; decide
    exact digitChar_inj _ (Nat.mod_lt _ (by omega)) 0 (by omega) this
  omega

theorem natReprChars_inj {n m : Nat} (h : natReprChars n = natReprChars m) : n = m := by
  unfold natReprChars at h
  by_cases hn : n = 0 <;> by_cases hm : m = 0
  · omega
  · exfalso
    rw [if_pos hn, if_neg hm] at h
    exact natReprAux_ne_single_zero hm h.symm
  · exfalso
    rw [if_neg hn, if_pos hm] at h
    exact natReprAux_ne_single_zero hn h
  · rw [if_neg hn, if_neg hm] at h
    exact natReprAux_inj n hn m hm h

theorem natReprChars_chars (n : Nat) :
    ∀ c ∈ natReprChars n, ∃ d, d < 10 ∧ c = Nat.digitChar d := by
  unfold natReprChars
  by_cases hn : n = 0
  · rw [if_pos hn]
    intro c hc
    simp at hc
    exact ⟨0, by omega, by rw [hc]; decide⟩
  · rw [if_neg hn]
    exact natReprAux_chars n

theorem digitChar_ne_amp : ∀ d < 10, Nat.digitChar d ≠ '&' := by decide

theorem digitChar_ne_dash : ∀ d < 10, Nat.digitChar d ≠ '-' := by decide

theorem amp_not_mem_natReprChars (n : Nat) : '&' ∉ natReprChars n := by
  intro hmem
  rcases natReprChars_chars n _ hmem with ⟨d, hd, hc⟩
  exact digitChar_ne_amp d hd hc.symm

theorem amp_not_mem_intReprChars (i : Int) : '&' ∉ intReprChars i := by
  unfold intReprChars
  by_cases hi : i < 0
  · rw [if_pos hi]
    intro hmem
    rcases List.mem_cons.1 hmem with h | h
    · exact absurd h (by decide)
    · exact amp_not_mem_natReprChars _ h
  · rw [if_neg hi]
    exact amp_not_mem_natReprChars _

theorem intReprChars_inj {i j : Int} (h : intReprChars i = intReprChars j) : i = j := by
  unfold intReprChars at h
  by_cases hi : i < 0 <;> by_cases hj : j < 0
  · rw [if_pos hi, if_pos hj] at h
    have h' : natReprChars i.natAbs = natReprChars j.natAbs := by
      simpa using h
    have := natReprChars_inj h'
    omega
  · exfalso
    rw [if_pos hi, if_neg hj] at h
    have : '-' ∈ natReprChars j.toNat := by
      rw [← h]; simp
    rcases natReprChars_chars _ _ this with ⟨d, hd, hc⟩
    exact digitChar_ne_dash d hd hc.symm
  · exfalso
    rw [if_neg hi, if_pos hj] at h
    have : '-' ∈ natReprChars i.toNat := by
      rw [h]; simp
    rcases natReprChars_chars _ _ this with ⟨d, hd, hc⟩
    exact digitChar_ne_dash d hd hc.symm
  · rw [if_neg hi, if_neg hj] at h
    have := natReprChars_inj h
    omega

/-- Splitting at an unambiguous separator character: if the separator
occurs in neither left part, concatenations agree only when both parts
agree. -/
theorem sep_append_inj {l₁ : List Char} :
    ∀ {l₂ r₁ r₂ : List Char} {c : Char}, c ∉ l₁ → c ∉ l₂ →
      l₁ ++ c :: r₁ = l₂ ++ c :: r₂ → l₁ = l₂ ∧ r₁ = r₂ := by
  induction l₁ with
  | nil =>
    intro l₂ r₁ r₂ c _ hc2 h
    rcases l₂ with _ | ⟨b, l₂⟩
    · simpa using h
    · simp at h
      exact absurd (h.1 ▸ List.mem_cons_self b l₂) (h.1 ▸ hc2)
  | cons a l₁ ih =>
    intro l₂ r₁ r₂ c hc1 hc2 h
    rcases l₂ with _ | ⟨b, l₂⟩
    · simp at h
      exact absurd (h.1 ▸ List.mem_cons_self a l₁) (h.1 ▸ hc1)
    · simp at h
      have := ih (fun hx => hc1 (List.mem_cons_of_mem a hx))
        (fun hx => hc2 (List.mem_cons_of_mem b hx)) h.2
      exact ⟨by rw [h.1, this.1], this.2⟩

/-! ### Integer ranges

Python range(a, b) over unbounded ints, as a list. -/

def intRange (a b : Int) : List Int :=
  (List.range (b - a).toNat).map (fun (i : Nat) => a + (i : Int))

theorem mem_intRange {a b x : Int} : x ∈ intRange a b ↔ a ≤ x ∧ x < b := by
  simp only [intRange, List.mem_map, List.mem_range]
  constructor
  · rintro ⟨i, hi, rfl⟩
    omega
  · intro h
    exact ⟨(x - a).toNat, by omega, by omega⟩

theorem intRange_nil {a b : Int} (h : b ≤ a) : intRange a b = [] := by
  unfold intRange
  rw [show (b - a).toNat = 0 by omega]
  rfl

theorem intRange_cons {a b : Int} (h : a < b) : intRange a b = a :: intRange (a + 1) b := by
  unfold intRange
  rw [show (b - a).toNat = (b - (a + 1)).toNat + 1 by omega, List.range_succ_eq_map]
  simp only [List.map_cons, List.map_map, Nat.cast_zero, add_zero]
  congr 1
  apply List.map_congr_left
  intro i _
  simp only [Function.comp_apply, Nat.succ_eq_add_one]
  push_cast
  ring

theorem intRange_concat {a b : Int} (h : a ≤ b) : intRange a (b + 1) = intRange a b ++ [b] := by
  unfold intRange
  rw [show (b + 1 - a).toNat = (b - a).toNat + 1 by omega, List.range_succ, List.map_append]
  congr 1
  simp only [List.map_cons, List.map_nil]
  congr 1
  omega

theorem intRange_pairwise (a b : Int) : (intRange a b).Pairwise (· < ·) := by
  exact (List.pairwise_lt_range _).map _ (fun i j hij => by omega)

/-! ### The sitemap bucket enumeration (get_content_urls, src/app.py lines 81-100)

The triple-nested loop of the source is translated structurally:
the year loop is range(start_year, end_year + 1); the month loop is
range(m_start, m_end + 1) with the boundary-year clipping of lines
84-85; the week loop is range(1, 5) whose conditional break at line 88
is a takeWhile.  The loop body (lines 89-99) does not influence the
loop control, so the iteration sequence is the flat list of visited
(year, month, week) triples, and get_content_urls is a fold of the
body over that sequence.
-/

/-- The weeks visited for a month: the break at line 88 stops the week
loop at the first week exceeding end_week inside the terminal
(end_year, end_month) bucket. -/
def weeksOf (ey em ew y m : Int) : List Int :=
  (intRange 1 5).takeWhile (fun w => !(y == ey && m == em && decide (ew < w)))

/-- The months visited for a year: lines 84-86 clip interior years to
1..12 and boundary years to the supplied start/end month. -/
def monthsOf (sy sm ey em y : Int) : List Int :=
  intRange (if y = sy then sm else 1) ((if y = ey then em else 12) + 1)

/-- The sequence of (year, month, week) buckets visited by the nested
loops of get_content_urls, in visit order. -/
def enumBuckets (sy sm ey em ew : Int) : List (Int × Int × Int) :=
  (intRange sy (ey + 1)).flatMap fun y =>
    (monthsOf sy sm ey em y).flatMap fun m =>
      (weeksOf ey em ew y m).map fun w => (y, m, w)

/-- The sitemap query URL built at line 89 of the source. -/
def bucketUrl (y m w : Int) : String :=
  "https://www.bonappetit.com/sitemap.xml?year=" ++ intReprStr y ++
    "&month=" ++ intReprStr m ++ "&week=" ++ intReprStr w

theorem bucketUrl_data (y m w : Int) : (bucketUrl y m w).data =
    "https://www.bonappetit.com/sitemap.xml?year=".data ++
      (intReprChars y ++ ('&' :: ("month=".data ++
        (intReprChars m ++ ('&' :: ("week=".data ++ intReprChars w)))))) := by
  simp only [bucketUrl, intReprStr, String.data_append, List.append_assoc]
  rfl

theorem bucketUrl_inj {y₁ m₁ w₁ y₂ m₂ w₂ : Int}
    (h : bucketUrl y₁ m₁ w₁ = bucketUrl y₂ m₂ w₂) : y₁ = y₂ ∧ m₁ = m₂ ∧ w₁ = w₂ := by
  have hd := congrArg String.data h
  rw [bucketUrl_data, bucketUrl_data] at hd
  have h1 := List.append_cancel_left hd
  have h2 := sep_append_inj (amp_not_mem_intReprChars y₁) (amp_not_mem_intReprChars y₂) h1
  have h3 := List.append_cancel_left h2.2
  have h4 := sep_append_inj (amp_not_mem_intReprChars m₁) (amp_not_mem_intReprChars m₂) h3
  have h5 := List.append_cancel_left h4.2
  exact ⟨intReprChars_inj h2.1, intReprChars_inj h4.1, intReprChars_inj h5⟩

/-- Fetch environment: what one HTTP GET of a sitemap bucket URL
yields after XML parsing — none models any fetch or parse failure
caught by the bare except at line 94, some gives the list of loc
texts extracted at line 93. -/
def FetchEnv : Type := String → Option (List String)

/-- The robots allow/deny decision rp.can_fetch("*", u) used at
line 96, abstracted over the parsed robots state. -/
def RobotsPred : Type := String → Bool

/-- Accumulator of the enumeration loop: the sitemap_map dict and the
two running totals. -/
structure CrawlAcc where
  sitemap_map : List (String × List String)
  total_checked : Nat
  total_crawlable : Nat
deriving DecidableEq

/-- Python dict assignment d[k] = v: overwrite in place if the key is
present, else append at the end (insertion order is preserved). -/
def insertDict (m : List (String × List String)) (k : String) (v : List String) :
    List (String × List String) :=
  if m.any (fun p => p.1 == k) then m.map (fun p => if p.1 == k then (k, v) else p)
  else m ++ [(k, v)]

/-- Python dict lookup d[k], as an Option. -/
def lookupDict (m : List (String × List String)) (k : String) : Option (List String) :=
  (m.find? (fun p => p.1 == k)).map (fun p => p.2)

/-- Body of the bucket loop, lines 89-99 of the source. -/
def processBucket (env : FetchEnv) (rp : RobotsPred) (acc : CrawlAcc)
    (b : Int × Int × Int) : CrawlAcc :=
  let url := bucketUrl b.1 b.2.1 b.2.2
  let urls := (env url).getD []
  let crawlable := urls.filter rp
  ⟨insertDict acc.sitemap_map url crawlable,
    acc.total_checked + urls.length,
    acc.total_crawlable + crawlable.length⟩

/-- get_content_urls (src/app.py lines 81-100): returns the
sitemap_map dict together with total_checked and total_crawlable.
The start_week parameter is accepted (it is part of the cache key)
but never read by the loop. -/
def get_content_urls (env : FetchEnv) (rp : RobotsPred)
    (start_year start_month start_week end_year end_month end_week : Int) :
    List (String × List String) × Nat × Nat :=
  let acc := (enumBuckets start_year start_month end_year end_month end_week).foldl
    (processBucket env rp) ⟨[], 0, 0⟩
  (acc.sitemap_map, acc.total_checked, acc.total_crawlable)

/-- Crawlability score, line 162 of the source, over the rationals. -/
def crawl_score (total_crawlable total_checked : Nat) : ℚ :=
  if total_checked ≠ 0 then (total_crawlable : ℚ) / (total_checked : ℚ) * 100 else 0

/-! ### Order and structure of the bucket enumeration -/

/-- Strict chronological order on (year, month, week) buckets. -/
def lexLt (a b : Int × Int × Int) : Prop :=
  a.1 < b.1 ∨ (a.1 = b.1 ∧ (a.2.1 < b.2.1 ∨ (a.2.1 = b.2.1 ∧ a.2.2 < b.2.2)))

/-- Chronological order (allowing equality) on buckets. -/
def bucketLe (a b : Int × Int × Int) : Prop :=
  a.1 < b.1 ∨ (a.1 = b.1 ∧ (a.2.1 < b.2.1 ∨ (a.2.1 = b.2.1 ∧ a.2.2 ≤ b.2.2)))

instance : DecidablePred (fun p : (Int × Int × Int) × (Int × Int × Int) => lexLt p.1 p.2) := by
  intro p
  unfold lexLt
  infer_instance

theorem intRange15 : intRange 1 5 = [1, 2, 3, 4] := by rfl

theorem weeksOf_ne {ey em ew y m : Int} (h : ¬(y = ey ∧ m = em)) :
    weeksOf ey em ew y m = [1, 2, 3, 4] := by
  unfold weeksOf
  rw [intRange15]
  by_cases hy : y = ey
  · have hm : m ≠ em := fun hm => h ⟨hy, hm⟩
    simp [hy, hm]
  · simp [hy]

theorem weeksOf_term (ey em ew : Int) :
    weeksOf ey em ew ey em = (intRange 1 5).takeWhile (fun w => decide (w ≤ ew)) := by
  unfold weeksOf
  congr 1
  funext w
  simp only [beq_self_eq_true, Bool.true_and, ← decide_not, decide_eq_decide]
  omega

theorem mem_weeksOf {ey em ew y m w : Int} :
    w ∈ weeksOf ey em ew y m ↔ 1 ≤ w ∧ w ≤ 4 ∧ (y = ey ∧ m = em → w ≤ ew) := by
  by_cases h : y = ey ∧ m = em
  · obtain ⟨rfl, rfl⟩ := h
    rw [weeksOf_term, intRange15]
    simp only [List.takeWhile_cons]
    split_ifs <;> simp_all <;> omega
  · rw [weeksOf_ne h]
    simp only [List.mem_cons, List.not_mem_nil, or_false]
    constructor
    · intro hw
      refine ⟨by omega, by omega, fun hc => absurd hc h⟩
    · intro hw
      omega

theorem weeksOf_pairwise (ey em ew y m : Int) : (weeksOf ey em ew y m).Pairwise (· < ·) := by
  have h : (intRange 1 5).Pairwise (· < ·) := by
    rw [intRange15]
    decide
  exact h.sublist (List.takeWhile_sublist _)

theorem weeksOf_head {ey em ew y m : Int} (h : y = ey ∧ m = em → 1 ≤ ew) :
    (weeksOf ey em ew y m).head? = some 1 := by
  by_cases hc : y = ey ∧ m = em
  · obtain ⟨rfl, rfl⟩ := hc
    rw [weeksOf_term, intRange15]
    have h1 : (1 : Int) ≤ ew := h ⟨rfl, rfl⟩
    simp only [List.takeWhile_cons]
    split_ifs with h2 <;> simp_all
  · rw [weeksOf_ne hc]
    rfl

theorem weeksOf_getLast {ey em ew : Int} (h1 : 1 ≤ ew) (h4 : ew ≤ 4) :
    (weeksOf ey em ew ey em).getLast? = some ew := by
  rw [weeksOf_term, intRange15]
  interval_cases ew <;> simp [List.takeWhile_cons]

theorem pairwise_flatMap {α β : Type} {R : β → β → Prop} {l : List α} {f : α → List β}
    (h1 : ∀ a ∈ l, (f a).Pairwise R)
    (h2 : l.Pairwise (fun a b => ∀ x ∈ f a, ∀ y ∈ f b, R x y)) :
    (l.flatMap f).Pairwise R := by
  induction l with
  | nil => simp
  | cons a l ih =>
    rw [List.flatMap_cons, List.pairwise_append]
    have h2' := List.pairwise_cons.1 h2
    refine ⟨h1 a (by simp), ih (fun x hx => h1 x (by simp [hx])) h2'.2, ?_⟩
    intro x hx y hy
    rcases List.mem_flatMap.1 hy with ⟨b, hb, hyb⟩
    exact h2'.1 b hb x hx y hyb

theorem mem_enumBuckets {sy sm ey em ew y m w : Int} :
    (y, m, w) ∈ enumBuckets sy sm ey em ew ↔
      sy ≤ y ∧ y ≤ ey ∧ (if y = sy then sm else 1) ≤ m ∧ m ≤ (if y = ey then em else 12) ∧
        1 ≤ w ∧ w ≤ 4 ∧ (y = ey ∧ m = em → w ≤ ew) := by
  simp only [enumBuckets, monthsOf, List.mem_flatMap, List.mem_map, mem_intRange, mem_weeksOf,
    Prod.mk.injEq]
  constructor
  · rintro ⟨y1, hy1, m1, hm1, w1, hw1, rfl, rfl, rfl⟩
    exact ⟨hy1.1, by omega, hm1.1, Int.lt_add_one_iff.1 hm1.2, hw1.1, hw1.2.1, hw1.2.2⟩
  · rintro ⟨hy1, hy2, hm1, hm2, hw1, hw2, hw3⟩
    exact ⟨y, ⟨hy1, by omega⟩, m, ⟨hm1, Int.lt_add_one_iff.2 hm2⟩, w, ⟨hw1, hw2, hw3⟩,
      rfl, rfl, rfl⟩

theorem fst_of_mem_inner {sy sm ey em ew y : Int} {x : Int × Int × Int}
    (hx : x ∈ (monthsOf sy sm ey em y).flatMap fun m =>
      (weeksOf ey em ew y m).map fun w => (y, m, w)) : x.1 = y := by
  rcases List.mem_flatMap.1 hx with ⟨m, _, hm⟩
  rcases List.mem_map.1 hm with ⟨w, _, rfl⟩
  rfl

theorem enumBuckets_pairwise (sy sm ey em ew : Int) :
    (enumBuckets sy sm ey em ew).Pairwise lexLt := by
  unfold enumBuckets
  apply pairwise_flatMap
  · intro y _
    apply pairwise_flatMap
    · intro m _
      apply List.Pairwise.map
      · intro w1 w2 h12
        exact Or.inr ⟨rfl, Or.inr ⟨rfl, h12⟩⟩
      · exact weeksOf_pairwise ey em ew y m
    · apply List.Pairwise.imp ?_ (intRange_pairwise _ _)
      intro m1 m2 h12 x hx z hz
      rcases List.mem_map.1 hx with ⟨w1, _, rfl⟩
      rcases List.mem_map.1 hz with ⟨w2, _, rfl⟩
      exact Or.inr ⟨rfl, Or.inl h12⟩
  · apply List.Pairwise.imp ?_ (intRange_pairwise _ _)
    intro y1 y2 h12 x hx z hz
    have e1 := fst_of_mem_inner hx
    have e2 := fst_of_mem_inner hz
    exact Or.inl (by omega)

theorem enumBuckets_head {sy sm ey em ew : Int} (h1 : sy ≤ ey) (h2 : sy = ey → sm ≤ em)
    (h3 : sm ≤ 12) (h4 : 1 ≤ ew) :
    (enumBuckets sy sm ey em ew).head? = some (sy, sm, 1) := by
  unfold enumBuckets
  rw [intRange_cons (show sy < ey + 1 by omega), List.flatMap_cons]
  have hm : sm ≤ (if sy = ey then em else 12) := by
    by_cases h : sy = ey
    · simpa [h] using h2 h
    · simpa [h] using h3
  have hmonths : monthsOf sy sm ey em sy =
      sm :: intRange (sm + 1) ((if sy = ey then em else 12) + 1) := by
    unfold monthsOf
    rw [if_pos rfl, intRange_cons (by omega)]
  have hwk : ((weeksOf ey em ew sy sm).map fun w => (sy, sm, w)) ≠ [] := by
    intro hc
    have h0 := congrArg List.head? hc
    rw [List.head?_map, weeksOf_head (fun _ => h4)] at h0
    simp at h0
  have hin : ((monthsOf sy sm ey em sy).flatMap fun m =>
      (weeksOf ey em ew sy m).map fun w => (sy, m, w)) ≠ [] := by
    rw [hmonths, List.flatMap_cons]
    exact List.append_ne_nil_of_left_ne_nil hwk _
  rw [List.head?_append_of_ne_nil _ hin, hmonths, List.flatMap_cons,
    List.head?_append_of_ne_nil _ hwk, List.head?_map, weeksOf_head (fun _ => h4)]
  rfl

theorem enumBuckets_getLast {sy sm ey em ew : Int} (h1 : sy ≤ ey) (h2 : sy = ey → sm ≤ em)
    (h5 : 1 ≤ em) (h6 : 1 ≤ ew) (h7 : ew ≤ 4) :
    (enumBuckets sy sm ey em ew).getLast? = some (ey, em, ew) := by
  unfold enumBuckets
  rw [intRange_concat h1, List.flatMap_append]
  simp only [List.flatMap_cons, List.flatMap_nil, List.append_nil]
  have hwk : ((weeksOf ey em ew ey em).map fun w => (ey, em, w)) ≠ [] := by
    intro hc
    have h0 := congrArg List.getLast? hc
    rw [List.getLast?_map, weeksOf_getLast h6 h7] at h0
    simp at h0
  have hlo : (if ey = sy then sm else 1) ≤ em := by
    by_cases h : ey = sy
    · simpa [h] using h2 h.symm
    · simpa [h] using h5
  have hmonths : monthsOf sy sm ey em ey =
      intRange (if ey = sy then sm else 1) em ++ [em] := by
    unfold monthsOf
    rw [show (if (ey : Int) = ey then em else 12) = em by simp, intRange_concat hlo]
  rw [hmonths, List.flatMap_append]
  simp only [List.flatMap_cons, List.flatMap_nil, List.append_nil]
  rw [List.getLast?_append_of_ne_nil _ (List.append_ne_nil_of_right_ne_nil _ hwk),
    List.getLast?_append_of_ne_nil _ hwk, List.getLast?_map, weeksOf_getLast h6 h7]
  rfl

/-! ### Characterization of get_content_urls as a function of the
bucket sequence -/

/-- The query URL of a bucket triple. -/
def urlOf (b : Int × Int × Int) : String :=
  bucketUrl b.1 b.2.1 b.2.2

/-- The URLs discovered for a bucket: the parsed loc list of lines
91-93, or the empty list on the fetch/parse failure of line 94-95. -/
def discovered (env : FetchEnv) (b : Int × Int × Int) : List String :=
  (env (urlOf b)).getD []

/-- The robots-allowed URLs of a bucket, line 96. -/
def allowedOf (env : FetchEnv) (rp : RobotsPred) (b : Int × Int × Int) : List String :=
  (discovered env b).filter rp

theorem enumBuckets_urls_nodup (sy sm ey em ew : Int) :
    ((enumBuckets sy sm ey em ew).map urlOf).Nodup := by
  have hp := enumBuckets_pairwise sy sm ey em ew
  have hne : ∀ a b : Int × Int × Int, lexLt a b → urlOf a ≠ urlOf b := by
    intro a b hab heq
    obtain ⟨e1, e2, e3⟩ := bucketUrl_inj heq
    unfold lexLt at hab
    omega
  exact hp.map _ (fun a b h => hne a b h)

theorem insertDict_fresh {m : List (String × List String)} {k : String} {v : List String}
    (h : ∀ p ∈ m, p.1 ≠ k) : insertDict m k v = m ++ [(k, v)] := by
  unfold insertDict
  rw [if_neg]
  intro hc
  rcases List.any_eq_true.1 hc with ⟨p, hp, hbeq⟩
  exact h p hp (by simpa using hbeq)

theorem processBucket_eq (env : FetchEnv) (rp : RobotsPred) (acc : CrawlAcc)
    (b : Int × Int × Int) : processBucket env rp acc b =
      ⟨insertDict acc.sitemap_map (urlOf b) (allowedOf env rp b),
        acc.total_checked + (discovered env b).length,
        acc.total_crawlable + (allowedOf env rp b).length⟩ := rfl

theorem foldl_processBucket_spec (env : FetchEnv) (rp : RobotsPred) :
    ∀ (bs : List (Int × Int × Int)) (acc : CrawlAcc),
      (∀ b ∈ bs, ∀ p ∈ acc.sitemap_map, p.1 ≠ urlOf b) →
      (bs.map urlOf).Nodup →
      bs.foldl (processBucket env rp) acc =
        ⟨acc.sitemap_map ++ bs.map (fun b => (urlOf b, allowedOf env rp b)),
          acc.total_checked + (bs.map (fun b => (discovered env b).length)).sum,
          acc.total_crawlable + (bs.map (fun b => (allowedOf env rp b).length)).sum⟩ := by
  intro bs
  induction bs with
  | nil =>
    intro acc _ _
    simp
  | cons b bs ih =>
    intro acc hfresh hnodup
    rw [List.foldl_cons]
    have hstep : processBucket env rp acc b =
        ⟨acc.sitemap_map ++ [(urlOf b, allowedOf env rp b)],
          acc.total_checked + (discovered env b).length,
          acc.total_crawlable + (allowedOf env rp b).length⟩ := by
      rw [processBucket_eq, insertDict_fresh (fun p hp => hfresh b (by simp) p hp)]
    rw [hstep]
    rw [List.map_cons] at hnodup
    have hnd := List.nodup_cons.1 hnodup
    rw [ih _ ?_ hnd.2]
    · simp [List.append_assoc]
      constructor
      · omega
      · omega
    · intro b2 hb2 p hp
      rcases List.mem_append.1 hp with hpm | hps
      · exact hfresh b2 (by simp [hb2]) p hpm
      · have hpe : p = (urlOf b, allowedOf env rp b) := by simpa using hps
        rw [hpe]
        intro hc
        have hc2 : urlOf b = urlOf b2 := hc
        exact hnd.1 (by rw [hc2]; exact List.mem_map_of_mem urlOf hb2)

theorem get_content_urls_spec (env : FetchEnv) (rp : RobotsPred)
    (sy sm sw ey em ew : Int) :
    get_content_urls env rp sy sm sw ey em ew =
      ((enumBuckets sy sm ey em ew).map (fun b => (urlOf b, allowedOf env rp b)),
        ((enumBuckets sy sm ey em ew).map (fun b => (discovered env b).length)).sum,
        ((enumBuckets sy sm ey em ew).map (fun b => (allowedOf env rp b).length)).sum) := by
  unfold get_content_urls
  rw [foldl_processBucket_spec env rp _ ⟨[], 0, 0⟩ (by simp) (enumBuckets_urls_nodup sy sm ey em ew)]
  simp

theorem lookupDict_map_nodup (env : FetchEnv) (rp : RobotsPred) :
    ∀ (bs : List (Int × Int × Int)), (bs.map urlOf).Nodup →
      ∀ b ∈ bs, lookupDict (bs.map (fun b => (urlOf b, allowedOf env rp b))) (urlOf b) =
        some (allowedOf env rp b) := by
  intro bs
  induction bs with
  | nil =>
    intro _ b hb
    simp at hb
  | cons a bs ih =>
    intro hnodup b hb
    rw [List.map_cons] at hnodup
    have hnd := List.nodup_cons.1 hnodup
    rcases List.mem_cons.1 hb with rfl | hmem
    · unfold lookupDict
      rw [List.map_cons, List.find?_cons_of_pos]
      · rfl
      · simp
    · have hne : urlOf a ≠ urlOf b := by
        intro hc
        exact hnd.1 (hc ▸ List.mem_map_of_mem urlOf hmem)
      unfold lookupDict
      rw [List.map_cons, List.find?_cons_of_neg]
      · exact ih hnd.2 b hmem
      · simp [hne]

/-! ### Empty ranges -/

theorem enumBuckets_nil {sy sm ey em ew : Int}
    (h : ey < sy ∨ (ey = sy ∧ em < sm)) : enumBuckets sy sm ey em ew = [] := by
  rcases h with h | ⟨hye, hms⟩
  · unfold enumBuckets
    rw [intRange_nil (by omega)]
    rfl
  · unfold enumBuckets
    rw [show ey + 1 = sy + 1 by omega, intRange_cons (by omega), intRange_nil (by omega)]
    simp only [List.flatMap_cons, List.flatMap_nil, List.append_nil]
    unfold monthsOf
    rw [if_pos rfl, show (if (sy : Int) = ey then em else 12) = em by simp [hye.symm],
      intRange_nil (by omega)]
    rfl

theorem get_content_urls_empty (env : FetchEnv) (rp : RobotsPred)
    {sy sm ey em ew : Int} (sw : Int) (h : ey < sy ∨ (ey = sy ∧ em < sm)) :
    get_content_urls env rp sy sm sw ey em ew = ([], 0, 0) := by
  rw [get_content_urls_spec, enumBuckets_nil h]
  rfl

/-! ### Retrying fetcher (fetch_url, src/app.py lines 22-31)

The retry combinator itself is the tenacity library, which is not part
of this repository; it is modelled from the spec: up to
stop_after_attempt(3) total attempts, retrying exactly the exception
class configured at line 25, with the wait before attempt k (k at
least 2) being min(max(2, 1 * 2^(k-2)), 10) seconds as stated in the
spec, instantiated with the decorator parameters multiplier=1, min=2,
max=10 of line 24.
-/

/-- Outcome of one HTTP attempt inside fetch_url: ok is a 2xx
response; retriable is a requests RequestException, which covers both
transport-level errors and the non-2xx statuses raised by
raise_for_status at line 30; fatal is any other exception, which the
retry_if_exception_type filter of line 25 does not retry. -/
inductive AttemptResult (R : Type) where
  | ok (r : R)
  | retriable
  | fatal
deriving DecidableEq

/-- The stop_after_attempt parameter at line 23. -/
def stopAfterAttempts : Nat := 3

/-- Modelled from the spec: the wait in seconds before attempt k,
for wait_exponential(multiplier=1, min=2, max=10) at line 24. -/
def waitBefore (k : Nat) : Nat :=
  min (max 2 (1 * 2 ^ (k - 2))) 10

/-- Modelled from the spec: the tenacity retry loop.  outcome k is
what attempt number k would yield; the fuel counts attempts still
permitted.  Returns the overall result (none when the last error
surfaces), the number of attempts performed, and the waits performed
before retries, in order. -/
def retryLoop {R : Type} (outcome : Nat → AttemptResult R) :
    Nat → Nat → List Nat → Option R × Nat × List Nat
  | 0, k, waits => (none, k - 1, waits)
  | fuel + 1, k, waits =>
    match outcome k with
    | .ok r => (some r, k, waits)
    | .fatal => (none, k, waits)
    | .retriable =>
      if fuel = 0 then (none, k, waits)
      else retryLoop outcome fuel (k + 1) (waits ++ [waitBefore (k + 1)])

/-- fetch_url under the retry decorator of lines 22-26. -/
def fetch_url {R : Type} (outcome : Nat → AttemptResult R) : Option R × Nat × List Nat :=
  retryLoop outcome stopAfterAttempts 1 []

/-! ### Result cache (cache decorator, src/app.py lines 70-78)

The decorator keys its memo dict on (function name, positional args,
sorted kwargs).  get_content_urls is always invoked with exactly the
six positional range arguments (line 157), so the key reduces to the
6-tuple of range parameters compared by value with no normalization.
-/

abbrev RangeKey : Type := Int × Int × Int × Int × Int × Int

/-- The memo dict cache_data, in insertion order. -/
structure CacheState where
  entries : List (RangeKey × (List (String × List String) × Nat × Nat))

def lookupCache (s : CacheState) (k : RangeKey) :
    Option (List (String × List String) × Nat × Nat) :=
  (s.entries.find? (fun p => decide (p.1 = k))).map (fun p => p.2)

/-- One call of the cached get_content_urls: on a miss the wrapper
(lines 73-77) runs the real enumeration against the fetch environment
and robots state current at call time and stores the result; on a hit
it returns the stored value and runs nothing.  The Bool records
whether the network-bound enumeration ran. -/
def cachedCall (env : FetchEnv) (rp : RobotsPred) (s : CacheState) (k : RangeKey) :
    (List (String × List String) × Nat × Nat) × CacheState × Bool :=
  match lookupCache s k with
  | some v => (v, s, false)
  | none =>
    let v := get_content_urls env rp k.1 k.2.1 k.2.2.1 k.2.2.2.1 k.2.2.2.2.1 k.2.2.2.2.2
    (v, ⟨s.entries ++ [(k, v)]⟩, true)

/-! ### Render classification (extract_all_recipes, src/app.py lines 103-116) -/

/-- What a successful pass through the try block yields for the two
selector lookups of lines 110-111: the title element text and the
first description paragraph text, when the selectors match. -/
structure PageData where
  title : Option String
  desc : Option String
deriving DecidableEq

/-- Classification environment: none models any exception inside the
try block (a fetch failure of any kind, or a parse failure); some
carries the selector results of the successfully fetched page. -/
def PageEnv : Type := String → Option PageData

/-- One extracted recipe record, line 112. -/
structure Recipe where
  title : String
  description : String
  link : String
deriving DecidableEq

def recipeFromPage (u : String) (pd : PageData) : Recipe :=
  ⟨pd.title.getD "No title", pd.desc.getD "No description", u⟩

/-- The content-detail test of line 109: the literal substring
/recipe/ occurs in the URL. -/
def containsRecipeSeg (u : String) : Bool :=
  hasSubstr "/recipe/".data u.data

/-- Body of the classification loop, lines 105-115. -/
def extractStep (envp : PageEnv) (acc : List Recipe × List String) (u : String) :
    List Recipe × List String :=
  match envp u with
  | none => (acc.1, acc.2 ++ [u])
  | some pd =>
    if containsRecipeSeg u then (acc.1 ++ [recipeFromPage u pd], acc.2) else acc

/-- extract_all_recipes: returns (recipes, js_heavy). -/
def extract_all_recipes (envp : PageEnv) (urls : List String) :
    List Recipe × List String :=
  urls.foldl (extractStep envp) ([], [])

/-- The contribution of a single URL to the recipes list. -/
def extractOne (envp : PageEnv) (u : String) : Option Recipe :=
  match envp u with
  | none => none
  | some pd => if containsRecipeSeg u then some (recipeFromPage u pd) else none

theorem extract_foldl_spec (envp : PageEnv) :
    ∀ (urls : List String) (acc : List Recipe × List String),
      urls.foldl (extractStep envp) acc =
        (acc.1 ++ urls.filterMap (extractOne envp),
          acc.2 ++ urls.filter (fun u => (envp u).isNone)) := by
  intro urls
  induction urls with
  | nil =>
    intro acc
    simp
  | cons u urls ih =>
    intro acc
    rw [List.foldl_cons, ih]
    unfold extractStep extractOne
    match h : envp u with
    | none =>
      simp [h, List.filterMap_cons, List.filter_cons]
    | some pd =>
      by_cases hr : containsRecipeSeg u <;>
        simp [h, hr, List.filterMap_cons, List.filter_cons]

theorem extract_all_recipes_spec (envp : PageEnv) (urls : List String) :
    extract_all_recipes envp urls =
      (urls.filterMap (extractOne envp), urls.filter (fun u => (envp u).isNone)) := by
  unfold extract_all_recipes
  rw [extract_foldl_spec]
  simp

/-! ### Robots policy (urllib.robotparser state, consumed at lines 18-20 and 96)

The matcher is the Python standard library urllib.robotparser, not
repository code; it is modelled from that library: rule lines are kept
in file order inside per-agent entries, an entry carrying user-agent *
becomes the default entry (the first such entry wins), and a query
applies the FIRST rule line whose path is a prefix of the queried
path; there is no longest-match resolution.  The percent-decoding and
re-quoting the library applies are identity on the plain ASCII paths
used here and are omitted.
-/

structure RuleLine where
  path : String
  allowance : Bool
deriving DecidableEq

structure REntry where
  useragents : List String
  rulelines : List RuleLine
deriving DecidableEq

structure RobotsState where
  entries : List REntry
  defaultEntry : Option REntry
deriving DecidableEq

/-- RuleLine.__init__: an empty Disallow value is an allow-all rule. -/
def mkRuleLine (path : String) (allowance : Bool) : RuleLine :=
  if path = "" ∧ allowance = false then ⟨path, true⟩ else ⟨path, allowance⟩

/-- Entry.applies_to reduces the queried agent to the token before the
first slash, lowercased. -/
def agentToken (ua : String) : String :=
  lowerStr ⟨beforeChar '/' ua.data⟩

def entryAppliesTo (e : REntry) (ua : String) : Bool :=
  e.useragents.any fun agent =>
    agent == "*" || hasSubstr (lowerStr agent).data (agentToken ua).data

/-- Entry.allowance: the first rule line whose path is * or a prefix
of the queried path decides; default allow. -/
def entryAllowance (e : REntry) (path : String) : Bool :=
  match e.rulelines.find? (fun rl => rl.path == "*" || startsWithStr rl.path path) with
  | some rl => rl.allowance
  | none => true

/-- The suffix of a character list from its first slash on. -/
def afterHost : List Char → List Char
  | [] => []
  | c :: rest => if c = '/' then c :: rest else afterHost rest

/-- The characters following the first double slash, when present. -/
def sepDoubleSlash : List Char → Option (List Char)
  | [] => none
  | '/' :: '/' :: rest => some rest
  | _ :: rest => sepDoubleSlash rest

/-- The path part of a URL as can_fetch extracts it via
urlparse/urlunparse, for plain http(s) URLs without query params or
fragments: everything from the first slash after the host; an empty
path becomes the root path. -/
def urlPathOf (url : String) : String :=
  match sepDoubleSlash url.data with
  | some rest =>
    match afterHost rest with
    | [] => "/"
    | p => ⟨p⟩
  | none => if url.data = [] then "/" else url

/-- RobotFileParser.can_fetch for a parser state obtained from a
successful read, so none of the disallow_all/allow_all shortcuts
apply: the first entry matching the agent decides, else the default
(*) entry, else allow. -/
def can_fetch (rs : RobotsState) (ua url : String) : Bool :=
  let path := urlPathOf url
  match rs.entries.find? (fun e => entryAppliesTo e ua) with
  | some e => entryAllowance e path
  | none =>
    match rs.defaultEntry with
    | some e => entryAllowance e path
    | none => true

/-! ### The robots parser state machine (RobotFileParser.parse) -/

structure ParseAcc where
  state : Nat
  cur : REntry
  acc : RobotsState

/-- RobotFileParser._add_entry: a * entry becomes the default entry
(first one wins), others are appended in order. -/
def addEntry (rs : RobotsState) (e : REntry) : RobotsState :=
  if e.useragents.contains "*" then
    { rs with defaultEntry := if rs.defaultEntry.isNone then some e else rs.defaultEntry }
  else
    { rs with entries := rs.entries ++ [e] }

/-- One iteration of the parse loop over a raw line: the blank-line
entry flush, the comment cut at the first hash sign, the strip, the
split at the first colon, and the directive dispatch on the lowercased
key. -/
def parseLine (p : ParseAcc) (line : String) : ParseAcc :=
  let p :=
    if line = "" then
      if p.state = 1 then ⟨0, ⟨[], []⟩, p.acc⟩
      else if p.state = 2 then ⟨0, ⟨[], []⟩, addEntry p.acc p.cur⟩
      else p
    else p
  let cut := stripChars (beforeChar '#' line.data)
  if cut = [] then p
  else if cut.contains ':' = false then p
  else
    let key := lowerStr ⟨stripChars (beforeChar ':' cut)⟩
    let value : String := ⟨stripChars (afterFirstColon cut)⟩
    if key = "user-agent" then
      let p := if p.state = 2 then ⟨p.state, ⟨[], []⟩, addEntry p.acc p.cur⟩ else p
      ⟨1, ⟨p.cur.useragents ++ [value], p.cur.rulelines⟩, p.acc⟩
    else if key = "disallow" then
      if p.state ≠ 0 then
        ⟨2, ⟨p.cur.useragents, p.cur.rulelines ++ [mkRuleLine value false]⟩, p.acc⟩
      else p
    else if key = "allow" then
      if p.state ≠ 0 then
        ⟨2, ⟨p.cur.useragents, p.cur.rulelines ++ [mkRuleLine value true]⟩, p.acc⟩
      else p
    else if key = "crawl-delay" ∨ key = "request-rate" then
      if p.state ≠ 0 then ⟨2, p.cur, p.acc⟩ else p
    else p

/-- RobotFileParser.parse over the split lines of the downloaded
robots.txt; read() at line 20 of the source feeds the decoded body
through this once at module import. -/
def parseRobots (text : String) : RobotsState :=
  let final := (splitlinesStr text).foldl parseLine ⟨0, ⟨[], []⟩, ⟨[], none⟩⟩
  if final.state = 2 then addEntry final.acc final.cur else final.acc

/-! ### The robots summary (get_robots_summary, src/app.py lines 34-50) -/

/-- A single-quote string, used by the Python list repr below. -/
def sq : String := ⟨[Char.ofNat 39]⟩

def joinSep (sep : String) : List String → String
  | [] => ""
  | [s] => s
  | s :: rest => s ++ sep ++ joinSep sep rest

/-- Python repr of a list of plain strings, as interpolated into the
summary f-string at lines 44-49. -/
def pyStrListRepr (l : List String) : String :=
  "[" ++ joinSep ", " (l.map (fun s => sq ++ s ++ sq)) ++ "]"

def pyOptStr : Option String → String
  | none => "None"
  | some s => s

structure SummaryAcc where
  allowed : List String
  disallowed : List String
  crawl_delay : Option String
  sitemaps : List String

/-- One line of the summary scan, lines 38-43 of the source. -/
def summaryLine (a : SummaryAcc) (rawLine : String) : SummaryAcc :=
  let line := stripStr rawLine
  if startsWithStr "allow:" (lowerStr line) then
    { a with allowed := a.allowed ++ [⟨stripChars (afterFirstColon line.data)⟩] }
  else if startsWithStr "disallow:" (lowerStr line) then
    { a with disallowed := a.disallowed ++ [⟨stripChars (afterFirstColon line.data)⟩] }
  else if startsWithStr "crawl-delay:" (lowerStr line) then
    { a with crawl_delay := some ⟨stripChars (afterFirstColon line.data)⟩ }
  else if startsWithStr "sitemap:" (lowerStr line) then
    { a with sitemaps := a.sitemaps ++ [⟨stripChars (afterFirstColon line.data)⟩] }
  else a

/-- get_robots_summary (lines 34-50) applied to the text obtained by
its own fetch_url(rp.url) download at line 35. -/
def get_robots_summary (text : String) : String :=
  let a := (splitlinesStr text).foldl summaryLine ⟨[], [], none, []⟩
  "Allowed paths: " ++ pyStrListRepr a.allowed ++ "\n" ++
    "Disallowed paths: " ++ pyStrListRepr a.disallowed ++ "\n" ++
    "Crawl-delay: " ++ pyOptStr a.crawl_delay ++ "\n" ++
    "Sitemap links: " ++ pyStrListRepr a.sitemaps ++ "\n"

/-! ### Robots network activity of one process run -/

def robotsUrl : String := "https://www.bonappetit.com/robots.txt"

structure FetchLog where
  time : Nat
  urls : List String
deriving DecidableEq

/-- One network download in the startup trace: net n is the body
served by the n-th download of the run. -/
def doFetch (net : Nat → String) (log : FetchLog) (url : String) : String × FetchLog :=
  (net log.time, ⟨log.time + 1, log.urls ++ [url]⟩)

/-- The robots-related activity of one process run: module import
performs rp.read() (lines 18-20), downloading robots.txt and parsing
it into the process-wide parser state; rendering the dashboard then
calls get_robots_summary (line 135), whose first step is its own
fetch_url(rp.url) download of the same URL (line 35).  Returns the
parser state, the summary text and the download log. -/
def processRun (net : Nat → String) : RobotsState × String × FetchLog :=
  let r0 := doFetch net ⟨0, []⟩ robotsUrl
  let st := parseRobots r0.1
  let r1 := doFetch net r0.2 robotsUrl
  (st, get_robots_summary r1.1, r1.2)

/-! ### Score helpers -/

theorem crawl_score_nonneg (a c : Nat) : 0 ≤ crawl_score a c := by
  unfold crawl_score
  split_ifs with h
  · positivity
  · exact le_refl 0

theorem crawl_score_le_100 {a c : Nat} (h : a ≤ c) : crawl_score a c ≤ 100 := by
  unfold crawl_score
  split_ifs with hc
  · have hc0 : (0 : ℚ) < (c : ℚ) := by
      exact_mod_cast Nat.pos_of_ne_zero hc
    rw [div_mul_eq_mul_div, div_le_iff₀ hc0]
    have hac : (a : ℚ) ≤ (c : ℚ) := Nat.cast_le.2 h
    nlinarith
  · norm_num

/-! ## The claims -/

/-- C10: the computed output of get_content_urls is independent of the
start_week parameter: two calls whose arguments differ only in
start_week return the same bucket mapping, totalChecked and
totalAllowed, because the week loop always begins at week 1 and the
parameter is never read. -/
theorem C10_start_week_independence (env : FetchEnv) (rp : RobotsPred)
    (sy sm sw sw2 ey em ew : Int) :
    get_content_urls env rp sy sm sw ey em ew = get_content_urls env rp sy sm sw2 ey em ew := rfl

/-- C2 counterexample: the claim asserts that every range whose end
bucket lies strictly before its start bucket - explicitly including
ranges that differ only at the week level - yields an empty result
with zero totals.  At start (2024,5,2), end (2024,5,1) the start
bucket strictly exceeds the end bucket, yet the code still enumerates
week 1 of month 5: with a fetch environment discovering two URLs of
which one is robots-allowed, the result has one entry and totals
(2, 1), not an empty result with zero totals. -/
theorem C2_week_level_counterexample :
    get_content_urls (fun _ => some ["u", "v"]) (fun s => s == "u") 2024 5 2 2024 5 1 =
      ([("https://www.bonappetit.com/sitemap.xml?year=2024&month=5&week=1", ["u"])], 2, 1) ∧
    get_content_urls (fun _ => some ["u", "v"]) (fun s => s == "u") 2024 5 2 2024 5 1 ≠
      ([], 0, 0) := by
  constructor
  · decide
  · decide

/-- C2 (amended): a range is empty - the result is the empty mapping
with totalChecked = 0 and totalAllowed = 0, and no error is raised
(the model is total) - exactly when the end year precedes the start
year, or the years agree and the end month precedes the start month.
A range that differs only at the week level (same year and month,
end week before start week) is NOT empty: weeks 1..end_week of that
month are still enumerated, because the week loop ignores the start
week. -/
theorem C2_empty_range (env : FetchEnv) (rp : RobotsPred) (sy sm sw ey em ew : Int)
    (h : ey < sy ∨ (ey = sy ∧ em < sm)) :
    get_content_urls env rp sy sm sw ey em ew = ([], 0, 0) :=
  get_content_urls_empty env rp sw h

theorem C2_empty_range_witness :
    get_content_urls (fun _ => some ["u"]) (fun _ => true) 2025 1 1 2024 12 4 = ([], 0, 0) :=
  C2_empty_range (fun _ => some ["u"]) (fun _ => true) 2025 1 1 2024 12 4
    (Or.inl (by norm_num))

/-- C4: for every result of get_content_urls, totalChecked is the sum
over the bucket entries of the lengths of the discovered-URL lists
(the list the fetch environment yields for the entry's bucket URL,
empty on failure), totalAllowed is the sum of the lengths of the
stored allowed-URL lists, and the derived crawlability score is 0 when
totalChecked = 0 and 100 * totalAllowed / totalChecked otherwise,
always lying in [0, 100]. -/
theorem C4_totals_and_score (env : FetchEnv) (rp : RobotsPred) (sy sm sw ey em ew : Int) :
    (get_content_urls env rp sy sm sw ey em ew).2.1 =
      ((get_content_urls env rp sy sm sw ey em ew).1.map
        (fun e => ((env e.1).getD []).length)).sum ∧
    (get_content_urls env rp sy sm sw ey em ew).2.2 =
      ((get_content_urls env rp sy sm sw ey em ew).1.map (fun e => e.2.length)).sum ∧
    crawl_score (get_content_urls env rp sy sm sw ey em ew).2.2
        (get_content_urls env rp sy sm sw ey em ew).2.1 =
      (if (get_content_urls env rp sy sm sw ey em ew).2.1 = 0 then 0
        else 100 * ((get_content_urls env rp sy sm sw ey em ew).2.2 : ℚ) /
          ((get_content_urls env rp sy sm sw ey em ew).2.1 : ℚ)) ∧
    0 ≤ crawl_score (get_content_urls env rp sy sm sw ey em ew).2.2
        (get_content_urls env rp sy sm sw ey em ew).2.1 ∧
    crawl_score (get_content_urls env rp sy sm sw ey em ew).2.2
        (get_content_urls env rp sy sm sw ey em ew).2.1 ≤ 100 := by
  rw [get_content_urls_spec]
  dsimp only
  have hle : ((enumBuckets sy sm ey em ew).map
        (fun b => (allowedOf env rp b).length)).sum ≤
      ((enumBuckets sy sm ey em ew).map (fun b => (discovered env b).length)).sum := by
    apply List.sum_le_sum
    intro b _
    exact List.length_filter_le _ _
  refine ⟨?_, ?_, ?_, crawl_score_nonneg _ _, crawl_score_le_100 hle⟩
  · rw [List.map_map]
    rfl
  · rw [List.map_map]
    rfl
  · unfold crawl_score
    by_cases hc : ((enumBuckets sy sm ey em ew).map
        (fun b => (discovered env b).length)).sum = 0
    · rw [if_neg (by omega), if_pos hc]
    · rw [if_pos hc, if_neg hc]
      ring

/-- C5: the result cache is keyed by exact value equality of the six
range parameters with no normalization.  Starting from the empty
cache, the first call computes the enumeration against its
call-time environment (enumeration ran: flag true), a second call with
the identical key returns the stored value unchanged with no
enumeration (flag false) even under a different - changed - fetch
environment or robots state, while any distinct key (even one
differing only in the never-read start_week) does trigger a fresh
enumeration. -/
theorem C5_cache_memoization (env1 env2 : FetchEnv) (rp1 rp2 : RobotsPred)
    (k k2 : RangeKey) (hk : k2 ≠ k) :
    (cachedCall env1 rp1 ⟨[]⟩ k).2.2 = true ∧
    (cachedCall env1 rp1 ⟨[]⟩ k).1 =
      get_content_urls env1 rp1 k.1 k.2.1 k.2.2.1 k.2.2.2.1 k.2.2.2.2.1 k.2.2.2.2.2 ∧
    (cachedCall env2 rp2 (cachedCall env1 rp1 ⟨[]⟩ k).2.1 k).2.2 = false ∧
    (cachedCall env2 rp2 (cachedCall env1 rp1 ⟨[]⟩ k).2.1 k).1 =
      (cachedCall env1 rp1 ⟨[]⟩ k).1 ∧
    (cachedCall env2 rp2 (cachedCall env1 rp1 ⟨[]⟩ k).2.1 k2).2.2 = true := by
  have h1 : cachedCall env1 rp1 ⟨[]⟩ k =
      (get_content_urls env1 rp1 k.1 k.2.1 k.2.2.1 k.2.2.2.1 k.2.2.2.2.1 k.2.2.2.2.2,
        ⟨[(k, get_content_urls env1 rp1 k.1 k.2.1 k.2.2.1 k.2.2.2.1 k.2.2.2.2.1
          k.2.2.2.2.2)]⟩, true) := rfl
  rw [h1]
  refine ⟨rfl, rfl, ?_, ?_, ?_⟩
  · unfold cachedCall lookupCache
    simp [List.find?]
  · unfold cachedCall lookupCache
    simp [List.find?]
  · unfold cachedCall lookupCache
    have hd : (decide (k = k2)) = false := decide_eq_false (fun h => hk h.symm)
    simp [List.find?, hd]

theorem C5_cache_memoization_witness :
    ((2024 : Int), (1 : Int), (2 : Int), (2024 : Int), (1 : Int), (1 : Int)) ≠
      ((2024 : Int), (1 : Int), (1 : Int), (2024 : Int), (1 : Int), (1 : Int)) ∧
    (cachedCall (fun _ => none) (fun _ => true) ⟨[]⟩
      (2024, 1, 1, 2024, 1, 1)).2.2 = true := by
  refine ⟨by decide, (C5_cache_memoization (fun _ => none) (fun _ => none)
    (fun _ => true) (fun _ => false) (2024, 1, 1, 2024, 1, 1)
    (2024, 1, 2, 2024, 1, 1) (by decide)).1⟩

/-- C7: classification laws of extract_all_recipes.  The recipes list
is exactly the in-order image of extractOne over the input URLs and
the jsHeavy list is exactly the in-order sublist of URLs whose
fetch-and-parse failed; extractOne yields, for a URL fetched
successfully, exactly one record when the URL contains /recipe/ -
with the sentinels No title and No description when the respective
selector found nothing - and no record otherwise; a URL whose fetch
fails yields no record at all. -/
theorem C7_render_classification (envp : PageEnv) (urls : List String) (u : String)
    (pd : PageData) (hu : envp u = some pd) :
    extract_all_recipes envp urls =
      (urls.filterMap (extractOne envp), urls.filter (fun x => (envp x).isNone)) ∧
    extractOne envp u = (if containsRecipeSeg u then
      some ⟨pd.title.getD "No title", pd.desc.getD "No description", u⟩ else none) ∧
    (∀ x, envp x = none → extractOne envp x = none ∧
      extract_all_recipes envp [x] = ([], [x])) := by
  refine ⟨extract_all_recipes_spec envp urls, ?_, ?_⟩
  · unfold extractOne recipeFromPage
    rw [hu]
  · intro x hx
    constructor
    · unfold extractOne
      rw [hx]
    · unfold extract_all_recipes extractStep
      rw [List.foldl_cons, hx]
      rfl

theorem C7_render_classification_witness :
    (fun u => if u == "https://x/recipe/a" then some (PageData.mk (some "T") none)
      else none) "https://x/recipe/a" = some (PageData.mk (some "T") none) ∧
    (extract_all_recipes (fun u => if u == "https://x/recipe/a"
        then some (PageData.mk (some "T") none) else none)
      ["https://x/recipe/a", "https://x/story/b"] =
        (["https://x/recipe/a", "https://x/story/b"].filterMap
          (extractOne (fun u => if u == "https://x/recipe/a"
            then some (PageData.mk (some "T") none) else none)),
          ["https://x/recipe/a", "https://x/story/b"].filter
            (fun x => ((fun u => if u == "https://x/recipe/a"
              then some (PageData.mk (some "T") none) else none) x).isNone))) := by
  refine ⟨by decide, (C7_render_classification _ _ "https://x/recipe/a"
    (PageData.mk (some "T") none) (by decide)).1⟩

/-! Rule sets for the robots-matching claim: a user-agent * entry
carrying the two rules of the claim, in the two possible file
orders. -/

def robotsTextDisallowFirst : String :=
  "User-agent: *\nDisallow: /api/\nAllow: /api/public/\n"

def robotsTextAllowFirst : String :=
  "User-agent: *\nAllow: /api/public/\nDisallow: /api/\n"

/-- C6 counterexample: the claim asserts that canFetch returns true on
a URL under /api/public/ for every rule set containing both
Disallow: /api/ and Allow: /api/public/.  The parsed rule set of a
robots.txt listing the Disallow line first does contain both rules,
yet can_fetch denies the /api/public/ URL, because Python's
robotparser applies the first matching rule in file order with no
longest-match resolution. -/
theorem C6_allow_after_disallow_counterexample :
    parseRobots robotsTextDisallowFirst =
      ⟨[], some ⟨["*"], [⟨"/api/", false⟩, ⟨"/api/public/", true⟩]⟩⟩ ∧
    can_fetch (parseRobots robotsTextDisallowFirst) "*"
      "https://www.bonappetit.com/api/public/x" = false := by
  constructor
  · decide
  · decide

/-- C6 (amended): can_fetch performs the Python standard library's
robots-exclusion matching, which supports the wildcard agent but
applies the FIRST matching rule in file order.  For the rule set
with Allow: /api/public/ listed before Disallow: /api/, a URL whose
path is under /api/public/ is allowed - also for a concrete
user agent matched through the wildcard entry - and a URL under /api/
outside /api/public/ is denied; with the Disallow rule listed first,
URLs under /api/public/ are denied as well. -/
theorem C6_robots_matching :
    can_fetch (parseRobots robotsTextAllowFirst) "*"
      "https://www.bonappetit.com/api/public/x" = true ∧
    can_fetch (parseRobots robotsTextAllowFirst) "SmartCrawler/1.0"
      "https://www.bonappetit.com/api/public/x" = true ∧
    can_fetch (parseRobots robotsTextAllowFirst) "*"
      "https://www.bonappetit.com/api/secret" = false ∧
    can_fetch (parseRobots robotsTextDisallowFirst) "*"
      "https://www.bonappetit.com/api/public/x" = false ∧
    can_fetch (parseRobots robotsTextDisallowFirst) "*"
      "https://www.bonappetit.com/api/secret" = false := by
  refine ⟨by decide, by decide, by decide, by decide, by decide⟩

/-- C9 counterexample: the claim asserts robots.txt is downloaded
exactly once per process and that the human-readable summary derives
from that single fetch.  In one run the download log records the
robots URL twice - rp.read() at import and the fetch_url(rp.url)
inside get_robots_summary - and with a network whose served body
changes between the two downloads, the rendered summary disagrees
with the summary of the first download's body: the summary derives
from a second, separate download. -/
theorem C9_second_download_counterexample :
    ((processRun (fun n => if n = 0 then "Crawl-delay: 5\n"
      else "Crawl-delay: 7\n")).2.2.urls.count robotsUrl = 2) ∧
    (processRun (fun n => if n = 0 then "Crawl-delay: 5\n"
        else "Crawl-delay: 7\n")).2.1 ≠
      get_robots_summary ((fun n => if n = 0 then "Crawl-delay: 5\n"
        else "Crawl-delay: 7\n") 0) := by
  constructor
  · decide
  · decide

/-- C9 (amended): the parser state rp is built exactly once per
process, from the body of the first robots.txt download at module
import, and is immutable thereafter - it depends only on that first
download, so every can_fetch query derives from it.  The
human-readable summary, however, is produced from the body of a
second, separate robots.txt download performed by get_robots_summary
itself, so one run downloads the robots URL twice. -/
theorem C9_robots_single_parse (net net2 : Nat → String)
    (h : net 0 = net2 0) :
    (processRun net).1 = parseRobots (net 0) ∧
    (processRun net).2.1 = get_robots_summary (net 1) ∧
    (processRun net).2.2.urls = [robotsUrl, robotsUrl] ∧
    (processRun net).1 = (processRun net2).1 := by
  refine ⟨rfl, rfl, rfl, ?_⟩
  show parseRobots (net 0) = parseRobots (net2 0)
  rw [h]

theorem C9_robots_single_parse_witness :
    (fun _ : Nat => "Disallow: /x\n") 0 = (fun n : Nat => if n = 0
      then "Disallow: /x\n" else "Sitemap: https://y\n") 0 ∧
    (processRun (fun _ : Nat => "Disallow: /x\n")).2.2.urls = [robotsUrl, robotsUrl] := by
  refine ⟨by decide, (C9_robots_single_parse (fun _ => "Disallow: /x\n")
    (fun n => if n = 0 then "Disallow: /x\n" else "Sitemap: https://y\n")
    (by decide)).2.2.1⟩

/-- Chronological order on (year, month) pairs. -/
def monthLe (a b : Int × Int) : Prop :=
  a.1 < b.1 ∨ (a.1 = b.1 ∧ a.2 ≤ b.2)

/-- C1 counterexample: the claim asserts the enumeration starts from
the start bucket.  For the valid range start (2024,1,2), end
(2024,1,3) - start bucket at or before end bucket - the first
generated bucket is (2024,1,1), not the start bucket (2024,1,2): the
week loop begins at week 1 regardless of the supplied start week, and
the bucket (2024,1,1) generated first lies strictly before the start
bucket. -/
theorem C1_start_bucket_counterexample :
    bucketLe (2024, 1, 2) (2024, 1, 3) ∧
    (enumBuckets 2024 1 2024 1 3).head? = some (2024, 1, 1) ∧
    some ((2024 : Int), (1 : Int), (1 : Int)) ≠ some ((2024 : Int), (1 : Int), (2 : Int)) := by
  refine ⟨?_, by decide, by decide⟩
  unfold bucketLe
  norm_num

/-- C1 (amended): for every valid range (months in 1..12, weeks in
1..4) whose start bucket is chronologically at or before its end
bucket, the loop generates buckets in strictly increasing
chronological order - hence non-decreasing with no duplicate
(year, month, week) triples - starting from week 1 of the start
month (the supplied start week is ignored, so this is the start
bucket exactly when the start week is 1) and ending at the end bucket
inclusive; a triple is generated iff its (year, month) lies between
the start and end months, its week is in 1..4 and, within the
terminal end month only, the week does not exceed the supplied end
week - every month before the terminal one enumerates all of weeks
1..4. -/
theorem C1_enumeration_order {sy sm sw ey em ew : Int}
    (hsm1 : 1 ≤ sm) (hsm2 : sm ≤ 12) (hem1 : 1 ≤ em) (hem2 : em ≤ 12)
    (hsw1 : 1 ≤ sw) (hsw2 : sw ≤ 4) (hew1 : 1 ≤ ew) (hew2 : ew ≤ 4)
    (hle : bucketLe (sy, sm, sw) (ey, em, ew)) :
    (enumBuckets sy sm ey em ew).Pairwise lexLt ∧
    (enumBuckets sy sm ey em ew).head? = some (sy, sm, 1) ∧
    (enumBuckets sy sm ey em ew).getLast? = some (ey, em, ew) ∧
    ∀ y m w : Int, (y, m, w) ∈ enumBuckets sy sm ey em ew ↔
      (monthLe (sy, sm) (y, m) ∧ monthLe (y, m) (ey, em) ∧ 1 ≤ m ∧ m ≤ 12 ∧
        1 ≤ w ∧ w ≤ 4 ∧ (y = ey ∧ m = em → w ≤ ew)) := by
  have hb : sy < ey ∨ (sy = ey ∧ (sm < em ∨ (sm = em ∧ sw ≤ ew))) := hle
  refine ⟨enumBuckets_pairwise sy sm ey em ew, ?_, ?_, ?_⟩
  · exact enumBuckets_head (by omega) (fun h => by omega) hsm2 hew1
  · exact enumBuckets_getLast (by omega) (fun h => by omega) hem1 hew1 hew2
  · intro y m w
    rw [mem_enumBuckets]
    unfold monthLe
    dsimp only
    by_cases h1 : y = sy <;> by_cases h2 : y = ey <;> simp only [h1, h2, if_true, if_false,
      eq_self_iff_true, if_pos, if_neg] <;> simp [h1, h2] <;> omega

theorem C1_enumeration_order_witness :
    (enumBuckets 2024 1 2024 3 2).Pairwise lexLt ∧
    (enumBuckets 2024 1 2024 3 2).head? = some (2024, 1, 1) ∧
    (enumBuckets 2024 1 2024 3 2).getLast? = some (2024, 3, 2) ∧
    ∀ y m w : Int, (y, m, w) ∈ enumBuckets 2024 1 2024 3 2 ↔
      (monthLe (2024, 1) (y, m) ∧ monthLe (y, m) (2024, 3) ∧ 1 ≤ m ∧ m ≤ 12 ∧
        1 ≤ w ∧ w ≤ 4 ∧ (y = 2024 ∧ m = 3 → w ≤ 2)) :=
  @C1_enumeration_order 2024 1 1 2024 3 2 (by norm_num) (by norm_num) (by norm_num)
    (by norm_num) (by norm_num) (by norm_num) (by norm_num) (by norm_num)
    (by unfold bucketLe; norm_num)

/-! ### C3: the retry policy -/

theorem fetch_url_eval {R : Type} (outcome : Nat → AttemptResult R) :
    fetch_url outcome =
      match outcome 1 with
      | .ok r => (some r, 1, [])
      | .fatal => (none, 1, [])
      | .retriable =>
        match outcome 2 with
        | .ok r => (some r, 2, [waitBefore 2])
        | .fatal => (none, 2, [waitBefore 2])
        | .retriable =>
          match outcome 3 with
          | .ok r => (some r, 3, [waitBefore 2, waitBefore 3])
          | .fatal => (none, 3, [waitBefore 2, waitBefore 3])
          | .retriable => (none, 3, [waitBefore 2, waitBefore 3]) := by
  show retryLoop outcome (2 + 1) 1 [] = _
  rw [retryLoop]
  rcases outcome 1 with r1 | _ | _
  · rfl
  · dsimp only
    rw [if_neg (by omega)]
    show retryLoop outcome (1 + 1) 2 [waitBefore 2] = _
    rw [retryLoop]
    rcases outcome 2 with r2 | _ | _
    · rfl
    · dsimp only
      rw [if_neg (by omega)]
      show retryLoop outcome (0 + 1) 3 [waitBefore 2, waitBefore 3] = _
      rw [retryLoop]
      rcases outcome 3 with r3 | _ | _ <;> rfl
    · rfl
  · rfl

/-- C3: fetch_url makes at most 3 total attempts per call, and only a
retriable failure (a requests RequestException: a transport error or
the non-2xx status raised by raise_for_status) triggers a retry - a
non-retriable error surfaces immediately after one attempt with no
wait.  A call failing its first two attempts retriably and succeeding
on the third returns the successful response after exactly the 2
waits min(max(2, 1*2^(k-2)), 10) for k = 2, 3, each equal to 2
seconds, within [2, 10] and non-decreasing; a call whose 3 attempts
all fail retriably surfaces the failure after exactly those same 2
waits and no further attempts. -/
theorem C3_retry_policy {R : Type} (outcome : Nat → AttemptResult R) (r : R) :
    (fetch_url outcome).2.1 ≤ 3 ∧
    (outcome 1 = .retriable → outcome 2 = .retriable → outcome 3 = .ok r →
      fetch_url outcome = (some r, 3, [waitBefore 2, waitBefore 3]) ∧
      waitBefore 2 = 2 ∧ waitBefore 3 = 2 ∧ 2 ≤ waitBefore 2 ∧ waitBefore 3 ≤ 10 ∧
      waitBefore 2 ≤ waitBefore 3) ∧
    (outcome 1 = .retriable → outcome 2 = .retriable → outcome 3 = .retriable →
      fetch_url outcome = (none, 3, [waitBefore 2, waitBefore 3])) ∧
    (outcome 1 = .fatal → fetch_url outcome = (none, 1, [])) := by
  refine ⟨?_, ?_, ?_, ?_⟩
  · rw [fetch_url_eval]
    rcases outcome 1 with r1 | _ | _ <;> rcases outcome 2 with r2 | _ | _ <;>
      rcases outcome 3 with r3 | _ | _ <;> norm_num
  · intro ha hb hc
    rw [fetch_url_eval, ha, hb, hc]
    exact ⟨rfl, by decide, by decide, by decide, by decide, by decide⟩
  · intro ha hb hc
    rw [fetch_url_eval, ha, hb, hc]
  · intro ha
    rw [fetch_url_eval, ha]

theorem C3_retry_policy_witness :
    (fun k => if k = 3 then AttemptResult.ok 7 else AttemptResult.retriable) 1 =
      AttemptResult.retriable ∧
    fetch_url (fun k => if k = 3 then AttemptResult.ok 7 else AttemptResult.retriable) =
      (some 7, 3, [waitBefore 2, waitBefore 3]) := by
  refine ⟨by decide, ((C3_retry_policy
    (fun k => if k = 3 then AttemptResult.ok 7 else AttemptResult.retriable) 7).2.1
    (by decide) (by decide) (by decide)).1⟩

/-- C8: failures degrade locally and never abort a batch.  During
enumeration every bucket of the range - in particular one whose fetch
or parse failed - is recorded in the result mapping under its bucket
URL with its robots-filtered discovered list, which is the empty list
exactly when the fetch environment fails on that bucket; the
remaining buckets are unaffected.  During classification, a URL whose
fetch fails is recorded in jsHeavy in position while the
classification of all URLs before and after it proceeds exactly as it
does without that URL. -/
theorem C8_local_degradation (env : FetchEnv) (rp : RobotsPred)
    (sy sm sw ey em ew : Int) (b : Int × Int × Int)
    (envp : PageEnv) (us1 us2 : List String) (u : String)
    (hb : b ∈ enumBuckets sy sm ey em ew) (hu : envp u = none) :
    lookupDict (get_content_urls env rp sy sm sw ey em ew).1 (urlOf b) =
      some (((env (urlOf b)).getD []).filter rp) ∧
    (env (urlOf b) = none →
      lookupDict (get_content_urls env rp sy sm sw ey em ew).1 (urlOf b) = some []) ∧
    (extract_all_recipes envp (us1 ++ u :: us2)).1 =
      (extract_all_recipes envp us1).1 ++ (extract_all_recipes envp us2).1 ∧
    (extract_all_recipes envp (us1 ++ u :: us2)).2 =
      (extract_all_recipes envp us1).2 ++ u :: (extract_all_recipes envp us2).2 := by
  have hone : extractOne envp u = none := by
    unfold extractOne
    rw [hu]
  have hmap : lookupDict (get_content_urls env rp sy sm sw ey em ew).1 (urlOf b) =
      some (allowedOf env rp b) := by
    rw [get_content_urls_spec]
    exact lookupDict_map_nodup env rp _ (enumBuckets_urls_nodup sy sm ey em ew) b hb
  refine ⟨hmap, ?_, ?_, ?_⟩
  · intro henv
    rw [hmap, show allowedOf env rp b = [] from by
      unfold allowedOf discovered
      rw [henv]
      rfl]
  · rw [extract_all_recipes_spec, extract_all_recipes_spec, extract_all_recipes_spec]
    dsimp only
    simp [List.filterMap_append, List.filterMap_cons, hone]
  · rw [extract_all_recipes_spec, extract_all_recipes_spec, extract_all_recipes_spec]
    dsimp only
    simp [List.filter_append, List.filter_cons, hu]

theorem C8_local_degradation_witness :
    ((2024 : Int), (1 : Int), (1 : Int)) ∈ enumBuckets 2024 1 2024 1 1 ∧
    lookupDict (get_content_urls (fun _ => none) (fun _ => true) 2024 1 1 2024 1 1).1
      (urlOf (2024, 1, 1)) = some [] := by
  refine ⟨by decide, (C8_local_degradation (fun _ => none) (fun _ => true)
    2024 1 1 2024 1 1 (2024, 1, 1) (fun _ => none) [] [] "u" (by decide) rfl).2.1 rfl⟩

end Crawler
